import Mathlib

/-!
# Verification of the repository-structure tree builder

Shallow embedding of `repo_structure.py` (functions `get_repo_structure`,
`_build_tree`, `_is_ignored`, and the exclusion constants), together with
proofs about the claims of the specification.

Modelling conventions:
* A filesystem snapshot is an `FSEntry` tree.  Python's `Path.is_file`,
  `Path.is_dir`, `Path.is_symlink` follow symlinks and return `False`
  when the underlying `stat` reports a missing or non-matching path;
  from Python 3.13 they also swallow `PermissionError` (earlier pathlib
  re-raises it).  The constructors encode the observable classification
  under the 3.13 `stat` semantics:
  - `file`        : regular file (is_file ✓)
  - `dir`         : readable directory with its `iterdir` listing
  - `symlinkFile` : symlink whose target is a file (is_symlink ✓, is_file ✓)
  - `symlinkDir`  : symlink whose target is a directory (is_symlink ✓, is_dir ✓)
  - `denied`      : entry whose `stat` fails with `PermissionError`
                    (is_symlink, is_file, is_dir all `False` on ≥ 3.13)
  - `other`       : socket/device/nonexistent path
                    (is_symlink, is_file, is_dir all `False`)
* `_build_tree` contains no exception handler, so an exception raised
  by `iterdir()` (line 230) — a directory whose `stat` succeeds but
  whose listing is permission-denied — escapes the entire traversal.
  `FSEntry` and the total `buildTree` cover the snapshots on which no
  call raises; the extended `FSEntryE` / `buildTreeE` (see the C3
  section) add the `unreadableDir` constructor and model the uncaught
  propagation with `Except`, and `buildTreeE_embed` proves the two
  models agree on raise-free snapshots.
* Paths are lists of segments.  `ctx.rootParts` are the `Path.parts` of the
  repository root (an absolute path, root directory name included), and the
  builder threads `rel`, the list of segments of the current entry relative
  to the repository root (`[]` for the root itself), so that
  `current_path.parts = ctx.rootParts ++ rel`.
* The compiled `.gitignore` matcher (`pathspec` library, not part of this
  repository) is abstracted as an optional Boolean predicate on the
  root-relative segment list, mirroring `_is_ignored`.
* Python's `list.sort(key=...)` is a stable sort by the key; any stable
  sort under the same total preorder produces the same list, so it is
  embedded as `List.insertionSort` (stable) by the lowercased name.
* `str.lower` is embedded as `String.toLower`; Python compares strings
  lexicographically by code point, as does Lean's `String` order.
-/

/-- The kind of an emitted node: the `"type"` field of the Python dict. -/
inductive NodeType where
  | file
  | directory
deriving DecidableEq, Repr

/-- A node of the produced tree: the Python dict
`{"name": ..., "type": ..., "children": ...?}`.  `children = none` models
the *absence* of the `"children"` key. -/
inductive Node where
  | mk (name : String) (ntype : NodeType) (children : Option (List Node))

/-- The `"name"` field of a node. -/
def Node.name : Node → String
  | .mk n _ _ => n

/-- The `"type"` field of a node. -/
def Node.ntype : Node → NodeType
  | .mk _ t _ => t

/-- The optional `"children"` field of a node. -/
def Node.children : Node → Option (List Node)
  | .mk _ _ c => c

/-- A filesystem snapshot entry (see the module docstring for the mapping
to observable `Path.is_file` / `is_dir` / `is_symlink` results). -/
inductive FSEntry where
  | file (name : String)
  | dir (name : String) (entries : List FSEntry)
  | symlinkFile (name : String)
  | symlinkDir (name : String)
  | denied (name : String)
  | other (name : String)

/-- `Path.name`: the final path segment of the entry. -/
def FSEntry.name : FSEntry → String
  | .file n => n
  | .dir n _ => n
  | .symlinkFile n => n
  | .symlinkDir n => n
  | .denied n => n
  | .other n => n

/-- The `iterdir()` listing of a directory (empty for anything else). -/
def FSEntry.entries : FSEntry → List FSEntry
  | .dir _ l => l
  | _ => []

/-- `Path.is_symlink()`. -/
def FSEntry.isSymlink : FSEntry → Bool
  | .symlinkFile _ => true
  | .symlinkDir _ => true
  | _ => false

/-- `Path.is_file()` (follows symlinks; `False` when `stat` fails). -/
def FSEntry.isFile : FSEntry → Bool
  | .file _ => true
  | .symlinkFile _ => true
  | _ => false

/-- `Path.is_dir()` (follows symlinks; `False` when `stat` fails). -/
def FSEntry.isDir : FSEntry → Bool
  | .dir _ _ => true
  | .symlinkDir _ => true
  | _ => false

/-- The immutable traversal context of `_build_tree`: the repository
root's absolute path segments, the merged exclude list, the optional
`.gitignore` matcher and the optional depth bound. -/
structure Ctx where
  rootParts : List String
  excludes : List String
  ignore : Option (List String → Bool)
  maxDepth : Option Int

/-- Line 196: `max_depth is not None and current_depth > max_depth`. -/
def depthCut : Option Int → Nat → Bool
  | none, _ => false
  | some md, d => (d : Int) > md

/-- Line 227: `max_depth is None or current_depth < max_depth`. -/
def canEnumerate : Option Int → Nat → Bool
  | none, _ => true
  | some md, d => (d : Int) < md

/-- Line 200: `any(part in exclude_patterns for part in current_path.parts)`. -/
def isExcluded (excludes : List String) (parts : List String) : Bool :=
  parts.any fun p => excludes.contains p

/-- `_is_ignored`: `False` when no `.gitignore` was found, otherwise the
compiled matcher applied to the root-relative path. -/
def isIgnored : Option (List String → Bool) → List String → Bool
  | none, _ => false
  | some m, rel => m rel

/-- Python's `str.lower` on a single character (ASCII case; Python's
Unicode case folding agrees on the ASCII range used here). -/
def lowerChar (c : Char) : Char :=
  if 65 ≤ c.toNat ∧ c.toNat ≤ 90 then Char.ofNat (c.toNat + 32) else c

/-- `name.lower()` as a list of characters. -/
def lowerName (e : FSEntry) : List Char := e.name.data.map lowerChar

/-- Python's `≤` on strings: lexicographic comparison by code point. -/
def lexLe : List Char → List Char → Bool
  | [], _ => true
  | _ :: _, [] => false
  | a :: as, b :: bs =>
    if a.toNat < b.toNat then true
    else if b.toNat < a.toNat then false
    else lexLe as bs

theorem lexLe_total : ∀ x y : List Char, lexLe x y = true ∨ lexLe y x = true
  | [], _ => Or.inl rfl
  | _ :: _, [] => Or.inr rfl
  | a :: as, b :: bs => by
    by_cases h₁ : a.toNat < b.toNat
    · exact Or.inl (by simp [lexLe, h₁])
    · by_cases h₂ : b.toNat < a.toNat
      · exact Or.inr (by simp [lexLe, h₂])
      · rcases lexLe_total as bs with h | h
        · exact Or.inl (by simp [lexLe, h₁, h₂, h])
        · exact Or.inr (by simp [lexLe, h₁, h₂, h])

theorem lexLe_trans : ∀ {x y z : List Char},
    lexLe x y = true → lexLe y z = true → lexLe x z = true
  | [], _, _, _, _ => rfl
  | a :: as, b :: bs, c :: cs, h₁, h₂ => by
    simp only [lexLe] at h₁ h₂ ⊢
    split_ifs at h₁ h₂ ⊢ <;> try omega
    all_goals try rfl
    all_goals try simp_all
    exact lexLe_trans h₁ h₂
  | a :: as, [], z, h₁, _ => by simp [lexLe] at h₁
  | a :: as, b :: bs, [], _, h₂ => by simp [lexLe] at h₂

theorem lexLe_antisymm : ∀ {x y : List Char},
    lexLe x y = true → lexLe y x = true → x = y
  | [], [], _, _ => rfl
  | [], _ :: _, _, h₂ => by simp [lexLe] at h₂
  | _ :: _, [], h₁, _ => by simp [lexLe] at h₁
  | a :: as, b :: bs, h₁, h₂ => by
    simp only [lexLe] at h₁ h₂
    split_ifs at h₁ h₂ <;> try omega
    all_goals try simp_all
    have hval : a.toNat = b.toNat := by omega
    have hab : a = b := Char.eq_of_val_eq (UInt32.ext hval)
    simp [hab, lexLe_antisymm h₁ h₂]

/-- Comparison used by `dirs.sort(key=lambda d: d.name.lower())`: compare
the lowercased names lexicographically by code point. -/
def fsLe (a b : FSEntry) : Prop :=
  lexLe (lowerName a) (lowerName b) = true

instance : DecidableRel fsLe := fun _ _ =>
  inferInstanceAs (Decidable (_ = true))

instance : IsTotal FSEntry fsLe := ⟨fun _ _ => lexLe_total _ _⟩

instance : IsTrans FSEntry fsLe := ⟨fun _ _ _ h₁ h₂ => lexLe_trans h₁ h₂⟩

/-- `sizeOf` of a list member is below the `sizeOf` of the list. -/
theorem sizeOf_filter_le (p : FSEntry → Bool) :
    ∀ l : List FSEntry, sizeOf (l.filter p) ≤ sizeOf l := by
  intro l
  induction l with
  | nil => simp
  | cons a t ih =>
    simp only [List.filter_cons]
    split
    · simp; omega
    · calc sizeOf (t.filter p) ≤ sizeOf t := ih
        _ ≤ 1 + sizeOf a + sizeOf t := by omega

/-- Permutations preserve the `sizeOf` of a list. -/
theorem Perm.sizeOf_eq {l₁ l₂ : List FSEntry} (h : l₁.Perm l₂) :
    sizeOf l₁ = sizeOf l₂ := by
  induction h with
  | nil => rfl
  | cons x _ ih => simp [ih]
  | swap x y l => simp; omega
  | trans _ _ ih₁ ih₂ => omega

theorem sizeOf_sortFilter_lt (p : FSEntry → Bool) (e : FSEntry)
    (hs : e.isSymlink = false) (hd : e.isDir = true) :
    sizeOf (List.insertionSort fsLe (e.entries.filter p)) < sizeOf e := by
  cases e with
  | dir n l =>
    have h₁ : sizeOf (List.insertionSort fsLe (l.filter p)) = sizeOf (l.filter p) :=
      Perm.sizeOf_eq (List.perm_insertionSort fsLe (l.filter p))
    have h₂ := sizeOf_filter_le p l
    simp only [FSEntry.entries]
    simp
    omega
  | symlinkDir n => simp [FSEntry.isSymlink] at hs
  | file n => simp [FSEntry.isDir] at hd
  | symlinkFile n => simp [FSEntry.isDir] at hd
  | denied n => simp [FSEntry.isDir] at hd
  | other n => simp [FSEntry.isDir] at hd

/-- Assembling a directory node from its collected children (lines
265–268): an empty collection leaves the `children` field absent. -/
def mkDirNode (n : String) (children : List Node) : Option Node :=
  if children.isEmpty then some (Node.mk n .directory none)
  else some (Node.mk n .directory (some children))

mutual

/-- `_build_tree(current_path, repo_root, pathspec_obj, max_depth,
current_depth, exclude_patterns)` — the recursive core, translated
line by line (lines 178–271).  `rel` is the segment list of
`current_path` relative to the repository root. -/
def buildTree (ctx : Ctx) (e : FSEntry) (rel : List String) (depth : Nat) :
    Option Node :=
  if depthCut ctx.maxDepth depth then none
  else if isExcluded ctx.excludes (ctx.rootParts ++ rel) then none
  else if isIgnored ctx.ignore rel then none
  else if _hs : e.isSymlink then none
  else if e.isFile then some (Node.mk e.name .file none)
  else if _hd : e.isDir then
    if canEnumerate ctx.maxDepth depth then
      let dirs := List.insertionSort fsLe (e.entries.filter fun x => x.isDir)
      let files := List.insertionSort fsLe (e.entries.filter fun x => !x.isDir)
      mkDirNode e.name (buildChildren ctx dirs rel depth ++
        buildChildren ctx files rel depth)
    else some (Node.mk e.name .directory none)
  else none
termination_by sizeOf e
decreasing_by
  · exact sizeOf_sortFilter_lt _ e (by simpa using _hs) _hd
  · exact sizeOf_sortFilter_lt _ e (by simpa using _hs) _hd

/-- The loop of lines 241–263: build each entry in order, keeping the
non-`None` results. -/
def buildChildren (ctx : Ctx) (es : List FSEntry) (rel : List String)
    (depth : Nat) : List Node :=
  match es with
  | [] => []
  | e :: rest =>
    match buildTree ctx e (rel ++ [e.name]) (depth + 1) with
    | none => buildChildren ctx rest rel depth
    | some n => n :: buildChildren ctx rest rel depth
termination_by sizeOf es
decreasing_by
  all_goals simp <;> omega

end

/-- `DEFAULT_EXCLUDES` (lines 23–27). -/
def DEFAULT_EXCLUDES : List String := [".git", "node_modules", "venv"]

/-- Lines 88–92: `list(set(exclude_patterns + DEFAULT_EXCLUDES))` when the
caller supplied a list, else `DEFAULT_EXCLUDES`.  Python's `set` order is
unspecified; only membership in the result is observable, and `dedup` of
the concatenation has exactly that membership. -/
def mergeExcludes : Option (List String) → List String
  | none => DEFAULT_EXCLUDES
  | some l => (l ++ DEFAULT_EXCLUDES).dedup

/-- `get_repo_structure` after the repository has been materialized (the
cloning step, lines 94–95, is the external acquisition collaborator): parse
the ignore file (abstracted as the `ignore` matcher argument) and build the
tree from the root at depth 0 (lines 97–110). -/
def getRepoStructure (root : FSEntry) (rootParts : List String)
    (ignore : Option (List String → Bool)) (maxDepth : Option Int)
    (extraExcludes : Option (List String)) : Option Node :=
  buildTree ⟨rootParts, mergeExcludes extraExcludes, ignore, maxDepth⟩ root [] 0

/-! ### Basic unfolding lemmas for `buildTree` -/

/-- The child-collection loop is a `filterMap` of the recursive call. -/
theorem buildChildren_eq (ctx : Ctx) (es : List FSEntry) (rel : List String)
    (depth : Nat) :
    buildChildren ctx es rel depth =
      es.filterMap fun e => buildTree ctx e (rel ++ [e.name]) (depth + 1) := by
  induction es with
  | nil => simp [buildChildren]
  | cons e t ih =>
    rw [buildChildren]
    cases h : buildTree ctx e (rel ++ [e.name]) (depth + 1) <;>
      simp [List.filterMap_cons, h, ih]

/-- Step 1 of the builder: depth cutoff. -/
theorem buildTree_cut {ctx : Ctx} {depth : Nat} (e : FSEntry) (rel : List String)
    (h : depthCut ctx.maxDepth depth = true) :
    buildTree ctx e rel depth = none := by
  rw [buildTree, h]
  simp

/-- Step 2: exclusion by a path segment of the full absolute path. -/
theorem buildTree_excluded {ctx : Ctx} {depth : Nat} (e : FSEntry)
    {rel : List String}
    (h : isExcluded ctx.excludes (ctx.rootParts ++ rel) = true) :
    buildTree ctx e rel depth = none := by
  rw [buildTree, h]
  simp

/-- Step 3: `.gitignore` matching. -/
theorem buildTree_ignored {ctx : Ctx} {depth : Nat} (e : FSEntry)
    {rel : List String} (h : isIgnored ctx.ignore rel = true) :
    buildTree ctx e rel depth = none := by
  rw [buildTree, h]
  simp

/-- Step 4: symlinks are never represented. -/
theorem buildTree_symlink {ctx : Ctx} {depth : Nat} {e : FSEntry}
    (rel : List String) (h : e.isSymlink = true) :
    buildTree ctx e rel depth = none := by
  rw [buildTree, h]
  simp

/-- An entry that is neither a symlink nor a file nor a directory (socket,
device, permission-denied, nonexistent) yields `None`, whatever the
context: every branch of `_build_tree` returns `None` on it. -/
theorem buildTree_stuckKind {e : FSEntry} (ctx : Ctx) (rel : List String)
    (depth : Nat) (hs : e.isSymlink = false) (hf : e.isFile = false)
    (hd : e.isDir = false) :
    buildTree ctx e rel depth = none := by
  rw [buildTree, hs, hf, hd]
  simp

/-- Step 5: a regular file yields a leaf node. -/
theorem buildTree_file {ctx : Ctx} {depth : Nat} {e : FSEntry}
    {rel : List String}
    (h₁ : depthCut ctx.maxDepth depth = false)
    (h₂ : isExcluded ctx.excludes (ctx.rootParts ++ rel) = false)
    (h₃ : isIgnored ctx.ignore rel = false)
    (h₄ : e.isSymlink = false) (h₅ : e.isFile = true) :
    buildTree ctx e rel depth = some (Node.mk e.name .file none) := by
  rw [buildTree, h₁, h₂, h₃, h₄, h₅]
  simp

/-- Step 6b: a directory visited exactly at the depth bound is returned
without enumeration and without a `children` field. -/
theorem buildTree_dir_stop {ctx : Ctx} {depth : Nat} {n : String}
    {l : List FSEntry} {rel : List String}
    (h₁ : depthCut ctx.maxDepth depth = false)
    (h₂ : isExcluded ctx.excludes (ctx.rootParts ++ rel) = false)
    (h₃ : isIgnored ctx.ignore rel = false)
    (h₅ : canEnumerate ctx.maxDepth depth = false) :
    buildTree ctx (.dir n l) rel depth = some (Node.mk n .directory none) := by
  rw [buildTree, h₁, h₂, h₃, h₅]
  simp [FSEntry.isSymlink, FSEntry.isFile, FSEntry.isDir, FSEntry.name]

/-- Step 6c/6d: an enumerated directory gathers the surviving children,
directory entries first, each group sorted by lowercased name. -/
theorem buildTree_dir_enum {ctx : Ctx} {depth : Nat} {n : String}
    {l : List FSEntry} {rel : List String}
    (h₁ : depthCut ctx.maxDepth depth = false)
    (h₂ : isExcluded ctx.excludes (ctx.rootParts ++ rel) = false)
    (h₃ : isIgnored ctx.ignore rel = false)
    (h₅ : canEnumerate ctx.maxDepth depth = true) :
    buildTree ctx (.dir n l) rel depth =
      mkDirNode n
        (((l.filter fun x => x.isDir).insertionSort fsLe).filterMap
          (fun e => buildTree ctx e (rel ++ [e.name]) (depth + 1)) ++
        ((l.filter fun x => !x.isDir).insertionSort fsLe).filterMap
          (fun e => buildTree ctx e (rel ++ [e.name]) (depth + 1))) := by
  rw [buildTree, h₁, h₂, h₃, h₅]
  simp [FSEntry.isSymlink, FSEntry.isFile, FSEntry.isDir, FSEntry.name,
    FSEntry.entries, buildChildren_eq]

/-! ### An executable mirror of the builder

`buildTree` is compiled by well-founded recursion, which does not reduce
inside the kernel; `buildTreeExec` is a structurally recursive mirror
(computing the recursive results of all entries first, then sorting the
keyed results), proved extensionally equal below, so that concrete runs
can be established by `rfl`. -/

/-- Order on `(entry, result)` pairs by the entry's lowercased name. -/
def pairLe (a b : FSEntry × Option Node) : Prop := fsLe a.1 b.1

instance : DecidableRel pairLe := fun a b =>
  inferInstanceAs (Decidable (fsLe a.1 b.1))

mutual

/-- Structurally recursive mirror of `buildTree`. -/
def buildTreeExec (ctx : Ctx) (e : FSEntry) (rel : List String)
    (depth : Nat) : Option Node :=
  if depthCut ctx.maxDepth depth then none
  else if isExcluded ctx.excludes (ctx.rootParts ++ rel) then none
  else if isIgnored ctx.ignore rel then none
  else
    match e with
    | .file n => some (Node.mk n .file none)
    | .dir n l =>
      if canEnumerate ctx.maxDepth depth then
        let rs := buildEntriesExec ctx l rel depth
        mkDirNode n
          ((List.insertionSort pairLe (rs.filter fun q => q.1.isDir)).filterMap
              Prod.snd ++
            (List.insertionSort pairLe (rs.filter fun q => !q.1.isDir)).filterMap
              Prod.snd)
      else some (Node.mk n .directory none)
    | _ => none

/-- Recursive results of all entries of a listing, keyed by the entry. -/
def buildEntriesExec (ctx : Ctx) (es : List FSEntry) (rel : List String)
    (depth : Nat) : List (FSEntry × Option Node) :=
  match es with
  | [] => []
  | e :: t =>
    (e, buildTreeExec ctx e (rel ++ [e.name]) (depth + 1)) ::
      buildEntriesExec ctx t rel depth

end

theorem buildEntriesExec_eq (ctx : Ctx) (es : List FSEntry)
    (rel : List String) (depth : Nat) :
    buildEntriesExec ctx es rel depth =
      es.map fun e => (e, buildTreeExec ctx e (rel ++ [e.name]) (depth + 1)) := by
  induction es with
  | nil => rfl
  | cons e t ih => simp [buildEntriesExec, ih]

theorem exec_children_eq (ctx : Ctx) (l : List FSEntry) (rel : List String)
    (depth : Nat) (p : FSEntry → Bool)
    (ih : ∀ x ∈ l, buildTree ctx x (rel ++ [x.name]) (depth + 1) =
      buildTreeExec ctx x (rel ++ [x.name]) (depth + 1)) :
    (List.insertionSort pairLe
        (((l.map fun e =>
            (e, buildTreeExec ctx e (rel ++ [e.name]) (depth + 1))).filter
          fun q => p q.1))).filterMap Prod.snd =
      ((l.filter p).insertionSort fsLe).filterMap
        (fun e => buildTree ctx e (rel ++ [e.name]) (depth + 1)) := by
  have hfil : ((l.map fun e =>
      (e, buildTreeExec ctx e (rel ++ [e.name]) (depth + 1))).filter
        fun q => p q.1) =
      (l.filter p).map fun e =>
        (e, buildTreeExec ctx e (rel ++ [e.name]) (depth + 1)) := by
    rw [List.filter_map]
    rfl
  have hsort : List.insertionSort pairLe
      ((l.filter p).map fun e =>
        (e, buildTreeExec ctx e (rel ++ [e.name]) (depth + 1))) =
      ((l.filter p).insertionSort fsLe).map fun e =>
        (e, buildTreeExec ctx e (rel ++ [e.name]) (depth + 1)) :=
    (List.map_insertionSort fsLe pairLe
      (fun e => (e, buildTreeExec ctx e (rel ++ [e.name]) (depth + 1)))
      (l.filter p) (fun _ _ _ _ => Iff.rfl)).symm
  rw [hfil, hsort, List.filterMap_map]
  refine List.filterMap_congr fun x hx => ?_
  have hxl : x ∈ l := List.mem_of_mem_filter ((List.mem_insertionSort fsLe).mp hx)
  simpa [Function.comp] using (ih x hxl).symm

/-- The builder and its executable mirror agree everywhere. -/
theorem buildTree_eq_exec (ctx : Ctx) (e : FSEntry) (rel : List String)
    (depth : Nat) : buildTree ctx e rel depth = buildTreeExec ctx e rel depth := by
  cases h₁ : depthCut ctx.maxDepth depth with
  | true => rw [buildTree_cut e rel h₁, buildTreeExec.eq_def]; simp [h₁]
  | false =>
  cases h₂ : isExcluded ctx.excludes (ctx.rootParts ++ rel) with
  | true => rw [buildTree_excluded e h₂, buildTreeExec.eq_def]; simp [h₁, h₂]
  | false =>
  cases h₃ : isIgnored ctx.ignore rel with
  | true => rw [buildTree_ignored e h₃, buildTreeExec.eq_def]; simp [h₁, h₂, h₃]
  | false =>
  cases e with
  | file n =>
    rw [@buildTree_file ctx depth (.file n) rel h₁ h₂ h₃ rfl rfl, buildTreeExec.eq_def]
    simp [h₁, h₂, h₃, FSEntry.name]
  | symlinkFile n =>
    rw [@buildTree_symlink ctx depth (.symlinkFile n) rel rfl, buildTreeExec.eq_def]
    simp [h₁, h₂, h₃]
  | symlinkDir n =>
    rw [@buildTree_symlink ctx depth (.symlinkDir n) rel rfl, buildTreeExec.eq_def]
    simp [h₁, h₂, h₃]
  | denied n =>
    rw [@buildTree_stuckKind (.denied n) ctx rel depth rfl rfl rfl,
      buildTreeExec.eq_def]
    simp [h₁, h₂, h₃]
  | other n =>
    rw [@buildTree_stuckKind (.other n) ctx rel depth rfl rfl rfl,
      buildTreeExec.eq_def]
    simp [h₁, h₂, h₃]
  | dir n l =>
    cases h₅ : canEnumerate ctx.maxDepth depth with
    | false =>
      rw [@buildTree_dir_stop ctx depth n l rel h₁ h₂ h₃ h₅, buildTreeExec.eq_def]
      simp [h₁, h₂, h₃, h₅]
    | true =>
      rw [@buildTree_dir_enum ctx depth n l rel h₁ h₂ h₃ h₅, buildTreeExec.eq_def]
      have ih : ∀ x ∈ l, buildTree ctx x (rel ++ [x.name]) (depth + 1) =
          buildTreeExec ctx x (rel ++ [x.name]) (depth + 1) := fun x hx =>
        buildTree_eq_exec ctx x (rel ++ [x.name]) (depth + 1)
      simp only [h₁, h₂, h₃, h₅, Bool.false_eq_true, if_false, if_true,
        buildEntriesExec_eq]
      rw [exec_children_eq ctx l rel depth (fun x => x.isDir) ih,
        exec_children_eq ctx l rel depth (fun x => !x.isDir) ih]
termination_by sizeOf e
decreasing_by
  have hlt := List.sizeOf_lt_of_mem hx
  simp
  omega

/-! ### Claims about the orchestrator and the exclusion test -/

/-- C10: with a negative `max_depth`, the depth cutoff `0 > max_depth`
fires at the root, so `get_repo_structure` returns `None` — no node, no
error — even when the root is a perfectly valid directory. -/
theorem claim_C10 (root : FSEntry) (rootParts : List String)
    (ignore : Option (List String → Bool)) (extra : Option (List String))
    (md : Int) (h : md < 0) :
    getRepoStructure root rootParts ignore (some md) extra = none := by
  unfold getRepoStructure
  apply buildTree_cut
  simp [depthCut]
  omega

/-- Witness for C10 at `max_depth = -1` on an existing directory root. -/
theorem claim_C10_witness :
    getRepoStructure (.dir "repo" [.file "a.txt"]) ["/", "repo"] none
      (some (-1)) none = none :=
  claim_C10 _ _ _ _ (-1) (by norm_num)

/-- C5: a directory visited at depth exactly `maxDepth` (and surviving the
exclusion and ignore filters) is returned as a node with no `children`
field, its entries not enumerated. -/
theorem claim_C5 {ctx : Ctx} {md : Int} {n : String} {l : List FSEntry}
    {rel : List String} {depth : Nat}
    (h₀ : ctx.maxDepth = some md) (hd : (depth : Int) = md)
    (h₂ : isExcluded ctx.excludes (ctx.rootParts ++ rel) = false)
    (h₃ : isIgnored ctx.ignore rel = false) :
    buildTree ctx (.dir n l) rel depth = some (Node.mk n .directory none) := by
  apply buildTree_dir_stop
  · simp [depthCut, h₀]; omega
  · exact h₂
  · exact h₃
  · simp [canEnumerate, h₀]; omega

/-- Witness for C5: with `maxDepth = 0` the root directory node has no
`children` field although the directory is not empty. -/
theorem claim_C5_witness :
    buildTree ⟨["/", "repo"], DEFAULT_EXCLUDES, none, some 0⟩
      (.dir "repo" [.file "a.txt", .dir "sub" [.file "b.txt"]]) [] 0 =
      some (Node.mk "repo" .directory none) :=
  claim_C5 rfl rfl rfl rfl

/-- C2 (counterexample to the claim as stated): a root path that exists
but is a regular file is not rejected with an `InvalidRoot` error — the
orchestrator happily returns a File node for it. -/
theorem claim_C2_counterexample :
    getRepoStructure (.file "f.txt") ["/", "tmp", "f.txt"] none none none =
      some (Node.mk "f.txt" .file none) :=
  (buildTree_eq_exec _ _ _ _).trans rfl

/-- C2 (amended): there is no `InvalidRoot` failure path.  A root whose
`stat` classifies as neither file nor directory nor symlink (in particular
a nonexistent path) yields `None`, and a root that is a regular file
yields a File leaf node. -/
theorem claim_C2_amended :
    (∀ (nm : String) (rootParts : List String)
      (ignore : Option (List String → Bool)) (md : Option Int)
      (extra : Option (List String)),
      getRepoStructure (.other nm) rootParts ignore md extra = none) ∧
    (∀ (nm : String) (rootParts : List String)
      (ignore : Option (List String → Bool)) (md : Option Int)
      (extra : Option (List String)),
      depthCut md 0 = false →
      isExcluded (mergeExcludes extra) (rootParts ++ []) = false →
      isIgnored ignore [] = false →
      getRepoStructure (.file nm) rootParts ignore md extra =
        some (Node.mk nm .file none)) := by
  constructor
  · intro nm rootParts ignore md extra
    exact buildTree_stuckKind _ _ _ rfl rfl rfl
  · intro nm rootParts ignore md extra h₁ h₂ h₃
    unfold getRepoStructure
    exact @buildTree_file ⟨rootParts, mergeExcludes extra, ignore, md⟩ 0
      (.file nm) [] h₁ h₂ h₃ rfl rfl

/-- Witness for C2 (amended) at concrete roots. -/
theorem claim_C2_witness :
    getRepoStructure (.other "ghost") ["/", "x", "ghost"] none none none =
      none ∧
    getRepoStructure (.file "g.txt") ["/", "tmp", "g.txt"] none none none =
      some (Node.mk "g.txt" .file none) :=
  ⟨claim_C2_amended.1 _ _ _ _ _, claim_C2_amended.2 _ _ _ _ _ rfl rfl rfl⟩

/-- C1 (counterexample to the claim as stated): the exclusion test also
fires on path segments *above* the repository root.  A repository cloned
under a directory named `node_modules` is wiped out entirely although no
segment from the repository root down matches the exclusion set. -/
theorem claim_C1_counterexample :
    getRepoStructure (.dir "repo" [.file "a.txt"])
      ["/", "home", "node_modules", "repo"] none none none = none ∧
    isExcluded DEFAULT_EXCLUDES ["repo"] = false ∧
    isExcluded DEFAULT_EXCLUDES ["repo", "a.txt"] = false :=
  ⟨(buildTree_eq_exec _ _ _ _).trans rfl, rfl, rfl⟩

/-- C1 (amended): the exclusion test is a segment-membership test over the
*full absolute path* — the repository root's own absolute path segments
included — so an excluded name anywhere above the root excludes every
visited path and the orchestrator returns no tree at all. -/
theorem claim_C1_amended :
    (∀ (excl rootParts rel : List String),
      isExcluded excl (rootParts ++ rel) = true ↔
        (∃ q ∈ rootParts, q ∈ excl) ∨ (∃ q ∈ rel, q ∈ excl)) ∧
    (∀ (root : FSEntry) (rootParts : List String)
      (ignore : Option (List String → Bool)) (md : Option Int)
      (extra : Option (List String)) (q : String),
      q ∈ rootParts → q ∈ mergeExcludes extra →
      getRepoStructure root rootParts ignore md extra = none) := by
  constructor
  · intro excl rootParts rel
    simp [isExcluded, List.any_eq_true, List.mem_append]
  · intro root rootParts ignore md extra q hq hmem
    unfold getRepoStructure
    cases h : depthCut md 0 with
    | true => exact buildTree_cut _ _ h
    | false =>
      apply buildTree_excluded
      simp [isExcluded, List.any_eq_true]
      exact ⟨q, hq, hmem⟩

/-- Witness for C1 (amended) at a concrete repository under
`/home/node_modules`. -/
theorem claim_C1_witness :
    (isExcluded DEFAULT_EXCLUDES
        (["/", "home", "node_modules", "repo"] ++ ["a.txt"]) = true) ∧
    getRepoStructure (.dir "repo" [.file "b.txt"])
      ["/", "home", "node_modules", "repo"] none none none = none :=
  ⟨(claim_C1_amended.1 _ _ _).mpr
      (Or.inl ⟨"node_modules", by decide, by decide⟩),
    claim_C1_amended.2 _ _ _ _ _ "node_modules" (by decide) (by decide)⟩

/-! ### C9: the depth-cutoff branch is unreachable from a well-formed entry -/

mutual

/-- The builder with the step-1 depth-cutoff branch (lines 196–197)
removed.  `claim_C9` shows it agrees with `buildTree` whenever the
current depth does not exceed the bound — in particular on every
recursive call reachable from a depth-0 entry with a non-negative (or
absent) bound, which is exactly the unreachability of that branch. -/
def buildTreeNC (ctx : Ctx) (e : FSEntry) (rel : List String) (depth : Nat) :
    Option Node :=
  if isExcluded ctx.excludes (ctx.rootParts ++ rel) then none
  else if isIgnored ctx.ignore rel then none
  else if _hs : e.isSymlink then none
  else if e.isFile then some (Node.mk e.name .file none)
  else if _hd : e.isDir then
    if canEnumerate ctx.maxDepth depth then
      let dirs := List.insertionSort fsLe (e.entries.filter fun x => x.isDir)
      let files := List.insertionSort fsLe (e.entries.filter fun x => !x.isDir)
      mkDirNode e.name (buildChildrenNC ctx dirs rel depth ++
        buildChildrenNC ctx files rel depth)
    else some (Node.mk e.name .directory none)
  else none
termination_by sizeOf e
decreasing_by
  · exact sizeOf_sortFilter_lt _ e (by simpa using _hs) _hd
  · exact sizeOf_sortFilter_lt _ e (by simpa using _hs) _hd

/-- Child-collection loop of the cutoff-free builder. -/
def buildChildrenNC (ctx : Ctx) (es : List FSEntry) (rel : List String)
    (depth : Nat) : List Node :=
  match es with
  | [] => []
  | e :: rest =>
    match buildTreeNC ctx e (rel ++ [e.name]) (depth + 1) with
    | none => buildChildrenNC ctx rest rel depth
    | some n => n :: buildChildrenNC ctx rest rel depth
termination_by sizeOf es
decreasing_by
  all_goals simp <;> omega

end

theorem buildChildrenNC_eq (ctx : Ctx) (es : List FSEntry) (rel : List String)
    (depth : Nat) :
    buildChildrenNC ctx es rel depth =
      es.filterMap fun e => buildTreeNC ctx e (rel ++ [e.name]) (depth + 1) := by
  induction es with
  | nil => simp [buildChildrenNC]
  | cons e t ih =>
    rw [buildChildrenNC]
    cases h : buildTreeNC ctx e (rel ++ [e.name]) (depth + 1) <;>
      simp [List.filterMap_cons, h, ih]

/-- C9: whenever the builder is invoked at a depth not exceeding the bound
(which holds at depth 0 for a null or non-negative bound and is preserved
by every recursive call), it agrees with the builder whose depth-cutoff
branch has been deleted: the `current_depth > max_depth` branch is
unreachable, depth limiting being enforced solely by the
stop-before-enumeration check. -/
theorem claim_C9 (ctx : Ctx) (e : FSEntry) (rel : List String) (depth : Nat)
    (h : ∀ md, ctx.maxDepth = some md → (depth : Int) ≤ md) :
    buildTree ctx e rel depth = buildTreeNC ctx e rel depth := by
  have hcut : depthCut ctx.maxDepth depth = false := by
    cases hmd : ctx.maxDepth with
    | none => rfl
    | some md => have := h md hmd; simp [depthCut]; omega
  cases h₂ : isExcluded ctx.excludes (ctx.rootParts ++ rel) with
  | true => rw [buildTree_excluded e h₂, buildTreeNC, h₂]; simp
  | false =>
  cases h₃ : isIgnored ctx.ignore rel with
  | true => rw [buildTree_ignored e h₃, buildTreeNC, h₂, h₃]; simp
  | false =>
  cases e with
  | file n =>
    rw [@buildTree_file ctx depth (.file n) rel hcut h₂ h₃ rfl rfl, buildTreeNC]
    simp [h₂, h₃, FSEntry.isSymlink, FSEntry.isFile, FSEntry.name]
  | symlinkFile n =>
    rw [@buildTree_symlink ctx depth (.symlinkFile n) rel rfl, buildTreeNC]
    simp [h₂, h₃, FSEntry.isSymlink]
  | symlinkDir n =>
    rw [@buildTree_symlink ctx depth (.symlinkDir n) rel rfl, buildTreeNC]
    simp [h₂, h₃, FSEntry.isSymlink]
  | denied n =>
    rw [@buildTree_stuckKind (.denied n) ctx rel depth rfl rfl rfl, buildTreeNC]
    simp [h₂, h₃, FSEntry.isSymlink, FSEntry.isFile, FSEntry.isDir]
  | other n =>
    rw [@buildTree_stuckKind (.other n) ctx rel depth rfl rfl rfl, buildTreeNC]
    simp [h₂, h₃, FSEntry.isSymlink, FSEntry.isFile, FSEntry.isDir]
  | dir n l =>
    cases h₅ : canEnumerate ctx.maxDepth depth with
    | false =>
      rw [@buildTree_dir_stop ctx depth n l rel hcut h₂ h₃ h₅, buildTreeNC]
      simp [h₂, h₃, h₅, FSEntry.isSymlink, FSEntry.isFile, FSEntry.isDir,
        FSEntry.name]
    | true =>
      have ih : ∀ x ∈ l, buildTree ctx x (rel ++ [x.name]) (depth + 1) =
          buildTreeNC ctx x (rel ++ [x.name]) (depth + 1) := by
        intro x hx
        refine claim_C9 ctx x (rel ++ [x.name]) (depth + 1) fun md hmd => ?_
        rw [hmd] at h₅
        simp [canEnumerate] at h₅
        push_cast
        omega
      rw [@buildTree_dir_enum ctx depth n l rel hcut h₂ h₃ h₅, buildTreeNC]
      simp only [h₂, h₃, h₅, FSEntry.isSymlink, FSEntry.isFile, FSEntry.isDir,
        FSEntry.name, FSEntry.entries, Bool.false_eq_true, if_false, if_true,
        dite_false, dite_true, buildChildrenNC_eq]
      congr 1
      congr 1
      · exact List.filterMap_congr fun x hx =>
          ih x (List.mem_of_mem_filter ((List.mem_insertionSort fsLe).mp hx))
      · exact List.filterMap_congr fun x hx =>
          ih x (List.mem_of_mem_filter ((List.mem_insertionSort fsLe).mp hx))
termination_by sizeOf e
decreasing_by
  have hlt := List.sizeOf_lt_of_mem hx
  simp
  omega

/-- Witness for C9 at a concrete two-level tree with `maxDepth = 1`,
entered at depth 0. -/
theorem claim_C9_witness :
    buildTree ⟨["/", "repo"], DEFAULT_EXCLUDES, none, some 1⟩
      (.dir "repo" [.dir "d" [.file "x.txt"]]) [] 0 =
    buildTreeNC ⟨["/", "repo"], DEFAULT_EXCLUDES, none, some 1⟩
      (.dir "repo" [.dir "d" [.file "x.txt"]]) [] 0 :=
  claim_C9 _ _ _ _ (by intro md hmd; cases hmd; omega)

/-! ### Stability: filtering commutes with the insertion sort -/

section SortFilter

variable {α : Type} (r : α → α → Prop) [DecidableRel r]

theorem filter_orderedInsert_neg (p : α → Bool) (a : α) (s : List α)
    (hp : p a = false) :
    (s.orderedInsert r a).filter p = s.filter p := by
  induction s with
  | nil => simp [List.orderedInsert, hp]
  | cons b s ih =>
    rw [List.orderedInsert]
    split
    · simp [List.filter_cons, hp]
    · rw [List.filter_cons, List.filter_cons]
      split <;> simp [ih]

theorem filter_orderedInsert [IsTrans α r] (p : α → Bool) (a : α) (s : List α)
    (hs : List.Sorted r s) (hp : p a = true) :
    (s.orderedInsert r a).filter p = (s.filter p).orderedInsert r a := by
  induction s with
  | nil => simp [List.orderedInsert, hp]
  | cons b s ih =>
    rw [List.orderedInsert]
    split
    case isTrue hr =>
      cases hpb : p b with
      | true => simp [List.filter_cons, hp, hpb, List.orderedInsert, hr]
      | false =>
        rw [List.filter_cons, List.filter_cons]
        simp only [hp, hpb, if_true, if_false, Bool.false_eq_true]
        have hall : ∀ c ∈ s.filter p, r a c := by
          intro c hc
          have hcs : c ∈ s := List.mem_of_mem_filter hc
          exact Trans.trans hr (List.rel_of_pairwise_cons hs hcs)
        cases hfp : s.filter p with
        | nil => simp [List.orderedInsert]
        | cons c rest =>
          have : r a c := hall c (by rw [hfp]; exact List.mem_cons_self c rest)
          simp [List.orderedInsert, this]
    case isFalse hr =>
      rw [List.filter_cons, List.filter_cons]
      cases hpb : p b with
      | true =>
        simp only [if_true]
        rw [List.orderedInsert]
        simp only [hr, if_neg]
        rw [ih hs.of_cons]
        simp [hr]
      | false =>
        simp only [Bool.false_eq_true, if_false]
        exact ih hs.of_cons

theorem filter_insertionSort [IsTotal α r] [IsTrans α r] (p : α → Bool)
    (l : List α) :
    (l.insertionSort r).filter p = (l.filter p).insertionSort r := by
  induction l with
  | nil => rfl
  | cons a l ih =>
    rw [List.insertionSort, List.filter_cons]
    cases hp : p a with
    | true =>
      rw [filter_orderedInsert r p a _ (List.sorted_insertionSort r l) hp, ih]
      simp [List.insertionSort]
    | false =>
      rw [filter_orderedInsert_neg r p a _ hp, ih]
      simp

end SortFilter

theorem filterMap_filter_none {α β : Type} (g : α → Option β) (p : α → Bool)
    (l : List α) (h : ∀ x ∈ l, p x = false → g x = none) :
    l.filterMap g = (l.filter p).filterMap g := by
  induction l with
  | nil => rfl
  | cons a t ih =>
    rw [List.filter_cons, List.filterMap_cons]
    cases hp : p a with
    | true =>
      rw [if_pos rfl, List.filterMap_cons]
      cases hg : g a <;>
        simp [hg, ih fun x hx => h x (List.mem_cons_of_mem a hx)]
    | false =>
      rw [h a (List.mem_cons_self a t) hp]
      simp only [Bool.false_eq_true, if_false]
      exact ih fun x hx => h x (List.mem_cons_of_mem a hx)

/-! ### C3: permission denial during enumeration — the fallible traversal

`_build_tree` contains no `try/except`.  A child directory that can be
stat'ed but not read makes `entry.is_dir()` (line 231) return `True`, so
the recursion proceeds and `current_path.iterdir()` (line 230) raises
`PermissionError`, which propagates uncaught through every recursion
level and out of `get_repo_structure`.  To express this the snapshot
type is extended with `unreadableDir` and the traversal returns
`Except`. -/

/-- The uncaught exception of the traversal. -/
inductive PermError where
  | permissionDenied
deriving DecidableEq

/-- Extended snapshot entries: `FSEntry` plus `unreadableDir`, a
directory whose `stat` succeeds (`is_dir()` is `True`) but whose
`iterdir()` raises `PermissionError` — a directory without read
permission. -/
inductive FSEntryE where
  | file (name : String)
  | dir (name : String) (entries : List FSEntryE)
  | unreadableDir (name : String)
  | symlinkFile (name : String)
  | symlinkDir (name : String)
  | denied (name : String)
  | other (name : String)

/-- `Path.name` on extended entries. -/
def FSEntryE.name : FSEntryE → String
  | .file n => n
  | .dir n _ => n
  | .unreadableDir n => n
  | .symlinkFile n => n
  | .symlinkDir n => n
  | .denied n => n
  | .other n => n

/-- `Path.is_dir()` on extended entries (`True` for the unreadable
directory: its `stat` succeeds). -/
def FSEntryE.isDir : FSEntryE → Bool
  | .dir _ _ => true
  | .unreadableDir _ => true
  | .symlinkDir _ => true
  | _ => false

/-- Lowercased name of an extended entry. -/
def lowerNameE (e : FSEntryE) : List Char := e.name.data.map lowerChar

/-- Order on `(extended entry, result)` pairs by lowercased name. -/
def pairLeE (a b : FSEntryE × Option Node) : Prop :=
  lexLe (lowerNameE a.1) (lowerNameE b.1) = true

instance : DecidableRel pairLeE := fun _ _ =>
  inferInstanceAs (Decidable (_ = true))

mutual

/-- `_build_tree` with the error path represented: `Except.error` is an
uncaught `PermissionError` escaping the recursion.  As in
`buildTreeExec`, the keyed child results are computed before sorting;
the source loop recurses in sorted order and aborts at the first raise,
but since the exception carries no data the `Except` result is the
same: any raising child makes the whole call raise. -/
def buildTreeE (ctx : Ctx) (e : FSEntryE) (rel : List String)
    (depth : Nat) : Except PermError (Option Node) :=
  if depthCut ctx.maxDepth depth then .ok none
  else if isExcluded ctx.excludes (ctx.rootParts ++ rel) then .ok none
  else if isIgnored ctx.ignore rel then .ok none
  else
    match e with
    | .file n => .ok (some (Node.mk n .file none))
    | .dir n l =>
      if canEnumerate ctx.maxDepth depth then
        match buildEntriesE ctx l rel depth with
        | .error pe => .error pe
        | .ok rs =>
          .ok (mkDirNode n
            ((List.insertionSort pairLeE (rs.filter fun q => q.1.isDir)).filterMap
                Prod.snd ++
              (List.insertionSort pairLeE
                (rs.filter fun q => !q.1.isDir)).filterMap Prod.snd))
      else .ok (some (Node.mk n .directory none))
    | .unreadableDir n =>
      if canEnumerate ctx.maxDepth depth then .error .permissionDenied
      else .ok (some (Node.mk n .directory none))
    | _ => .ok none

/-- Recursive results of all entries of a listing; the first raising
entry makes the whole enumeration raise. -/
def buildEntriesE (ctx : Ctx) (es : List FSEntryE) (rel : List String)
    (depth : Nat) : Except PermError (List (FSEntryE × Option Node)) :=
  match es with
  | [] => .ok []
  | e :: t =>
    match buildTreeE ctx e (rel ++ [e.name]) (depth + 1) with
    | .error pe => .error pe
    | .ok r =>
      match buildEntriesE ctx t rel depth with
      | .error pe => .error pe
      | .ok rest => .ok ((e, r) :: rest)

end

/-- C3 (the code contradicts the claim): with no exception handler in
`_build_tree`, a directory entry that can be stat'ed but not read
aborts the *whole* traversal with an uncaught `PermissionError` instead
of being treated as absent; the same listing without the unreadable
entry yields the tree the claim expected for the remaining entries. -/
theorem claim_C3 :
    buildTreeE ⟨["/", "repo"], DEFAULT_EXCLUDES, none, none⟩
      (.dir "repo" [.file "a.txt", .unreadableDir "locked"]) [] 0 =
      .error .permissionDenied ∧
    buildTreeE ⟨["/", "repo"], DEFAULT_EXCLUDES, none, none⟩
      (.dir "repo" [.file "a.txt"]) [] 0 =
      .ok (some (Node.mk "repo" .directory
        (some [Node.mk "a.txt" .file none]))) :=
  ⟨rfl, rfl⟩

mutual

/-- Embedding of raise-free snapshots into the extended snapshot type:
`FSEntry` is exactly `FSEntryE` without unreadable directories. -/
def FSEntry.embed : FSEntry → FSEntryE
  | .file n => .file n
  | .dir n l => .dir n (embedList l)
  | .symlinkFile n => .symlinkFile n
  | .symlinkDir n => .symlinkDir n
  | .denied n => .denied n
  | .other n => .other n

/-- `FSEntry.embed` over a listing. -/
def embedList : List FSEntry → List FSEntryE
  | [] => []
  | e :: t => e.embed :: embedList t

end

theorem embedList_eq_map (l : List FSEntry) :
    embedList l = l.map FSEntry.embed := by
  induction l with
  | nil => rfl
  | cons e t ih => rw [embedList, ih, List.map_cons]

theorem embed_name (e : FSEntry) : e.embed.name = e.name := by
  cases e <;> rfl

theorem embed_isDir (e : FSEntry) : e.embed.isDir = e.isDir := by
  cases e <;> rfl

theorem lowerNameE_embed (e : FSEntry) : lowerNameE e.embed = lowerName e := by
  unfold lowerNameE lowerName
  rw [embed_name]

theorem buildEntriesE_embed (ctx : Ctx) (l : List FSEntry)
    (rel : List String) (depth : Nat)
    (ih : ∀ x ∈ l, buildTreeE ctx x.embed (rel ++ [x.name]) (depth + 1) =
      .ok (buildTree ctx x (rel ++ [x.name]) (depth + 1))) :
    buildEntriesE ctx (embedList l) rel depth =
      .ok (l.map fun x =>
        (x.embed, buildTree ctx x (rel ++ [x.name]) (depth + 1))) := by
  induction l with
  | nil => rfl
  | cons e t iht =>
    rw [embedList, buildEntriesE, embed_name e, ih e (List.mem_cons_self e t),
      iht fun x hx => ih x (List.mem_cons_of_mem e hx)]
    simp

theorem exec_childrenE_eq (ctx : Ctx) (l : List FSEntry) (rel : List String)
    (depth : Nat) (q : FSEntryE → Bool) (p : FSEntry → Bool)
    (hq : ∀ x : FSEntry, q x.embed = p x) :
    (List.insertionSort pairLeE
      (((l.map fun x =>
          (x.embed, buildTree ctx x (rel ++ [x.name]) (depth + 1))).filter
        fun r => q r.1))).filterMap Prod.snd =
      ((l.filter p).insertionSort fsLe).filterMap
        (fun x => buildTree ctx x (rel ++ [x.name]) (depth + 1)) := by
  have hfil : ((l.map fun x =>
      (x.embed, buildTree ctx x (rel ++ [x.name]) (depth + 1))).filter
        fun r => q r.1) =
      (l.filter p).map fun x =>
        (x.embed, buildTree ctx x (rel ++ [x.name]) (depth + 1)) := by
    rw [List.filter_map]
    exact congrArg _ (List.filter_congr fun x _ => hq x)
  have hsort : List.insertionSort pairLeE
      ((l.filter p).map fun x =>
        (x.embed, buildTree ctx x (rel ++ [x.name]) (depth + 1))) =
      ((l.filter p).insertionSort fsLe).map fun x =>
        (x.embed, buildTree ctx x (rel ++ [x.name]) (depth + 1)) :=
    (List.map_insertionSort fsLe pairLeE
      (fun x => (x.embed, buildTree ctx x (rel ++ [x.name]) (depth + 1)))
      (l.filter p)
      (fun a _ b _ => by simp [fsLe, pairLeE, lowerNameE_embed])).symm
  rw [hfil, hsort, List.filterMap_map]
  rfl

/-- The total builder and the fallible builder agree on raise-free
snapshots: on an embedded `FSEntry` no call raises and the `Except`
result is exactly `buildTree`'s. -/
theorem buildTreeE_embed (ctx : Ctx) (e : FSEntry) (rel : List String)
    (depth : Nat) :
    buildTreeE ctx e.embed rel depth = .ok (buildTree ctx e rel depth) := by
  cases h₁ : depthCut ctx.maxDepth depth with
  | true => rw [buildTree_cut e rel h₁, buildTreeE.eq_def]; simp [h₁]
  | false =>
  cases h₂ : isExcluded ctx.excludes (ctx.rootParts ++ rel) with
  | true => rw [buildTree_excluded e h₂, buildTreeE.eq_def]; simp [h₁, h₂]
  | false =>
  cases h₃ : isIgnored ctx.ignore rel with
  | true => rw [buildTree_ignored e h₃, buildTreeE.eq_def]; simp [h₁, h₂, h₃]
  | false =>
  cases e with
  | file n =>
    rw [@buildTree_file ctx depth (.file n) rel h₁ h₂ h₃ rfl rfl,
      buildTreeE.eq_def]
    simp [h₁, h₂, h₃, FSEntry.embed, FSEntry.name]
  | symlinkFile n =>
    rw [@buildTree_symlink ctx depth (.symlinkFile n) rel rfl,
      buildTreeE.eq_def]
    simp [h₁, h₂, h₃, FSEntry.embed]
  | symlinkDir n =>
    rw [@buildTree_symlink ctx depth (.symlinkDir n) rel rfl,
      buildTreeE.eq_def]
    simp [h₁, h₂, h₃, FSEntry.embed]
  | denied n =>
    rw [@buildTree_stuckKind (.denied n) ctx rel depth rfl rfl rfl,
      buildTreeE.eq_def]
    simp [h₁, h₂, h₃, FSEntry.embed]
  | other n =>
    rw [@buildTree_stuckKind (.other n) ctx rel depth rfl rfl rfl,
      buildTreeE.eq_def]
    simp [h₁, h₂, h₃, FSEntry.embed]
  | dir n l =>
    cases h₅ : canEnumerate ctx.maxDepth depth with
    | false =>
      rw [@buildTree_dir_stop ctx depth n l rel h₁ h₂ h₃ h₅, buildTreeE.eq_def]
      simp [h₁, h₂, h₃, h₅, FSEntry.embed, FSEntry.name]
    | true =>
      have ih : ∀ x ∈ l, buildTreeE ctx x.embed (rel ++ [x.name]) (depth + 1) =
          .ok (buildTree ctx x (rel ++ [x.name]) (depth + 1)) := fun x hx =>
        buildTreeE_embed ctx x (rel ++ [x.name]) (depth + 1)
      rw [@buildTree_dir_enum ctx depth n l rel h₁ h₂ h₃ h₅]
      simp only [FSEntry.embed, buildTreeE, h₁, h₂, h₃, h₅, Bool.false_eq_true,
        if_false, if_true, buildEntriesE_embed ctx l rel depth ih]
      rw [exec_childrenE_eq ctx l rel depth FSEntryE.isDir (fun x => x.isDir)
          (fun x => embed_isDir x),
        exec_childrenE_eq ctx l rel depth (fun r => !r.isDir)
          (fun x => !x.isDir) (fun x => by simp only [embed_isDir])]
termination_by sizeOf e
decreasing_by
  have hlt := List.sizeOf_lt_of_mem hx
  simp
  omega

/-! ### C6: every emitted node passed the three filters; files are leaves -/

theorem mkDirNode_eq (n : String) (cs : List Node) :
    mkDirNode n cs =
      some (Node.mk n .directory (if cs.isEmpty then none else some cs)) := by
  unfold mkDirNode
  split <;> simp_all

/-- A successful build implies the entry passed the exclusion, ignore and
symlink filters. -/
theorem buildTree_some_checks {ctx : Ctx} {e : FSEntry} {rel : List String}
    {depth : Nat} {x : Node} (h : buildTree ctx e rel depth = some x) :
    isExcluded ctx.excludes (ctx.rootParts ++ rel) = false ∧
      isIgnored ctx.ignore rel = false ∧ e.isSymlink = false := by
  refine ⟨?_, ?_, ?_⟩
  · cases hx : isExcluded ctx.excludes (ctx.rootParts ++ rel) with
    | false => rfl
    | true => rw [buildTree_excluded e hx] at h; cases h
  · cases hx : isIgnored ctx.ignore rel with
    | false => rfl
    | true => rw [buildTree_ignored e hx] at h; cases h
  · cases hx : e.isSymlink with
    | false => rfl
    | true => rw [buildTree_symlink rel hx] at h; cases h

/-- The structural invariant of output trees: a node carrying a
`children` field is a Directory node; File nodes (and nodes without the
field) are leaves. -/
inductive FilesLeaf : Node → Prop where
  | leaf (nm : String) (t : NodeType) : FilesLeaf (Node.mk nm t none)
  | dir (nm : String) (cs : List Node) :
      (∀ c ∈ cs, FilesLeaf c) → FilesLeaf (Node.mk nm .directory (some cs))

/-- C6: every node produced by the builder passed the exclusion-list,
ignore-pattern and symlink filters (so, inductively, so did every node of
any `children` sequence, children being exactly the successful recursive
builds), and every File node of the output carries no `children` field. -/
theorem claim_C6 {ctx : Ctx} {e : FSEntry} {rel : List String} {depth : Nat}
    {x : Node} (h : buildTree ctx e rel depth = some x) :
    (isExcluded ctx.excludes (ctx.rootParts ++ rel) = false ∧
      isIgnored ctx.ignore rel = false ∧ e.isSymlink = false) ∧
      FilesLeaf x := by
  refine ⟨buildTree_some_checks h, ?_⟩
  obtain ⟨h₂, h₃, hs⟩ := buildTree_some_checks h
  cases h₁ : depthCut ctx.maxDepth depth with
  | true => rw [buildTree_cut e rel h₁] at h; cases h
  | false =>
  cases e with
  | file n =>
    rw [@buildTree_file ctx depth (.file n) rel h₁ h₂ h₃ rfl rfl] at h
    cases h
    exact FilesLeaf.leaf n .file
  | symlinkFile n => simp [FSEntry.isSymlink] at hs
  | symlinkDir n => simp [FSEntry.isSymlink] at hs
  | denied n =>
    rw [@buildTree_stuckKind (.denied n) ctx rel depth rfl rfl rfl] at h
    cases h
  | other n =>
    rw [@buildTree_stuckKind (.other n) ctx rel depth rfl rfl rfl] at h
    cases h
  | dir n l =>
    cases h₅ : canEnumerate ctx.maxDepth depth with
    | false =>
      rw [@buildTree_dir_stop ctx depth n l rel h₁ h₂ h₃ h₅] at h
      cases h
      exact FilesLeaf.leaf n .directory
    | true =>
      rw [@buildTree_dir_enum ctx depth n l rel h₁ h₂ h₃ h₅, mkDirNode_eq] at h
      cases h
      split
      · exact FilesLeaf.leaf n .directory
      · refine FilesLeaf.dir n _ fun c hc => ?_
        rcases List.mem_append.mp hc with hmem | hmem <;>
        · obtain ⟨a, ha, hba⟩ := List.mem_filterMap.mp hmem
          have hal : a ∈ l :=
            List.mem_of_mem_filter ((List.mem_insertionSort fsLe).mp ha)
          exact (claim_C6 hba).2
termination_by sizeOf e
decreasing_by
  all_goals
    have hlt := List.sizeOf_lt_of_mem hal
    subst_vars
    simp
    omega

/-- Witness for C6 on a concrete build. -/
theorem claim_C6_witness :
    (isExcluded DEFAULT_EXCLUDES (["/", "repo"] ++ []) = false ∧
      isIgnored none [] = false ∧
      (FSEntry.dir "repo" [.file "a.txt", .dir "sub" []]).isSymlink = false) ∧
    FilesLeaf (Node.mk "repo" .directory
      (some [Node.mk "sub" .directory none, Node.mk "a.txt" .file none])) :=
  claim_C6 ((buildTree_eq_exec
    ⟨["/", "repo"], DEFAULT_EXCLUDES, none, none⟩
    (.dir "repo" [.file "a.txt", .dir "sub" []]) [] 0).trans rfl)

/-! ### C4: children ordering — directories first, case-insensitive sort -/

/-- A successful build names the node after the entry. -/
theorem buildTree_some_name {ctx : Ctx} {e : FSEntry} {rel : List String}
    {depth : Nat} {x : Node} (h : buildTree ctx e rel depth = some x) :
    x.name = e.name := by
  obtain ⟨h₂, h₃, hs⟩ := buildTree_some_checks h
  cases h₁ : depthCut ctx.maxDepth depth with
  | true => rw [buildTree_cut e rel h₁] at h; cases h
  | false =>
  cases e with
  | file n =>
    rw [@buildTree_file ctx depth (.file n) rel h₁ h₂ h₃ rfl rfl] at h
    cases h; rfl
  | symlinkFile n => simp [FSEntry.isSymlink] at hs
  | symlinkDir n => simp [FSEntry.isSymlink] at hs
  | denied n =>
    rw [@buildTree_stuckKind (.denied n) ctx rel depth rfl rfl rfl] at h; cases h
  | other n =>
    rw [@buildTree_stuckKind (.other n) ctx rel depth rfl rfl rfl] at h; cases h
  | dir n l =>
    cases h₅ : canEnumerate ctx.maxDepth depth with
    | false =>
      rw [@buildTree_dir_stop ctx depth n l rel h₁ h₂ h₃ h₅] at h; cases h; rfl
    | true =>
      rw [@buildTree_dir_enum ctx depth n l rel h₁ h₂ h₃ h₅, mkDirNode_eq] at h
      cases h; rfl

/-- A directory-classified entry that survives yields a Directory node. -/
theorem buildTree_isDir_some {ctx : Ctx} {e : FSEntry} {rel : List String}
    {depth : Nat} {x : Node} (hd : e.isDir = true)
    (h : buildTree ctx e rel depth = some x) : x.ntype = .directory := by
  obtain ⟨h₂, h₃, hs⟩ := buildTree_some_checks h
  cases h₁ : depthCut ctx.maxDepth depth with
  | true => rw [buildTree_cut e rel h₁] at h; cases h
  | false =>
  cases e with
  | file n => simp [FSEntry.isDir] at hd
  | symlinkFile n => simp [FSEntry.isDir] at hd
  | symlinkDir n => simp [FSEntry.isSymlink] at hs
  | denied n => simp [FSEntry.isDir] at hd
  | other n => simp [FSEntry.isDir] at hd
  | dir n l =>
    cases h₅ : canEnumerate ctx.maxDepth depth with
    | false =>
      rw [@buildTree_dir_stop ctx depth n l rel h₁ h₂ h₃ h₅] at h; cases h; rfl
    | true =>
      rw [@buildTree_dir_enum ctx depth n l rel h₁ h₂ h₃ h₅, mkDirNode_eq] at h
      cases h; rfl

/-- A non-directory entry that survives yields a File node. -/
theorem buildTree_notDir_some {ctx : Ctx} {e : FSEntry} {rel : List String}
    {depth : Nat} {x : Node} (hd : e.isDir = false)
    (h : buildTree ctx e rel depth = some x) : x.ntype = .file := by
  obtain ⟨h₂, h₃, hs⟩ := buildTree_some_checks h
  cases h₁ : depthCut ctx.maxDepth depth with
  | true => rw [buildTree_cut e rel h₁] at h; cases h
  | false =>
  cases e with
  | file n =>
    rw [@buildTree_file ctx depth (.file n) rel h₁ h₂ h₃ rfl rfl] at h
    cases h; rfl
  | symlinkFile n => simp [FSEntry.isSymlink] at hs
  | symlinkDir n => simp [FSEntry.isDir] at hd
  | denied n =>
    rw [@buildTree_stuckKind (.denied n) ctx rel depth rfl rfl rfl] at h; cases h
  | other n =>
    rw [@buildTree_stuckKind (.other n) ctx rel depth rfl rfl rfl] at h; cases h
  | dir n l => simp [FSEntry.isDir] at hd

/-- Case-insensitive name order on output nodes. -/
def nodeLe (a b : Node) : Prop :=
  lexLe (a.name.data.map lowerChar) (b.name.data.map lowerChar) = true

/-- The C4 ordering shape of a `children` sequence: a block of Directory
nodes followed by a block of File nodes, each block sorted (non-strictly)
by lowercased name. -/
def SplitOk (cs : List Node) : Prop :=
  ∃ ds fs, cs = ds ++ fs ∧ (∀ x ∈ ds, x.ntype = .directory) ∧
    (∀ x ∈ fs, x.ntype = .file) ∧
    List.Sorted nodeLe ds ∧ List.Sorted nodeLe fs

/-- The C4 ordering invariant, recursively at every directory node. -/
inductive OrderedTree : Node → Prop where
  | leaf (nm : String) (t : NodeType) : OrderedTree (Node.mk nm t none)
  | node (nm : String) (t : NodeType) (cs : List Node) : SplitOk cs →
      (∀ c ∈ cs, OrderedTree c) → OrderedTree (Node.mk nm t (some cs))

/-- The surviving results of a sorted entry list are sorted by lowercased
node name. -/
theorem sorted_filterMap_build (ctx : Ctx) (rel : List String) (depth : Nat)
    {es : List FSEntry} (hs : List.Sorted fsLe es) :
    List.Sorted nodeLe (es.filterMap
      fun e => buildTree ctx e (rel ++ [e.name]) (depth + 1)) := by
  rw [List.Sorted, List.pairwise_filterMap]
  refine hs.imp_of_mem fun ha hb hab => ?_
  intro x hx y hy
  rw [Option.mem_def] at hx hy
  have hxn := buildTree_some_name hx
  have hyn := buildTree_some_name hy
  unfold nodeLe
  rw [hxn, hyn]
  exact hab

/-- C4: in every directory node of the built tree, the `children`
sequence is a block of Directory nodes followed by a block of File nodes,
each block sorted ascending by lowercased name — recursively at every
level. -/
theorem claim_C4 {ctx : Ctx} {e : FSEntry} {rel : List String} {depth : Nat}
    {x : Node} (h : buildTree ctx e rel depth = some x) : OrderedTree x := by
  obtain ⟨h₂, h₃, hs⟩ := buildTree_some_checks h
  cases h₁ : depthCut ctx.maxDepth depth with
  | true => rw [buildTree_cut e rel h₁] at h; cases h
  | false =>
  cases e with
  | file n =>
    rw [@buildTree_file ctx depth (.file n) rel h₁ h₂ h₃ rfl rfl] at h
    cases h
    exact OrderedTree.leaf n .file
  | symlinkFile n => simp [FSEntry.isSymlink] at hs
  | symlinkDir n => simp [FSEntry.isSymlink] at hs
  | denied n =>
    rw [@buildTree_stuckKind (.denied n) ctx rel depth rfl rfl rfl] at h; cases h
  | other n =>
    rw [@buildTree_stuckKind (.other n) ctx rel depth rfl rfl rfl] at h; cases h
  | dir n l =>
    cases h₅ : canEnumerate ctx.maxDepth depth with
    | false =>
      rw [@buildTree_dir_stop ctx depth n l rel h₁ h₂ h₃ h₅] at h
      cases h
      exact OrderedTree.leaf n .directory
    | true =>
      rw [@buildTree_dir_enum ctx depth n l rel h₁ h₂ h₃ h₅, mkDirNode_eq] at h
      cases h
      split
      · exact OrderedTree.leaf n .directory
      · refine OrderedTree.node n .directory _ ?_ ?_
        · refine ⟨_, _, rfl, ?_, ?_, ?_, ?_⟩
          · intro y hy
            obtain ⟨a, ha, hba⟩ := List.mem_filterMap.mp hy
            have had : a.isDir = true :=
              (List.mem_filter.mp ((List.mem_insertionSort fsLe).mp ha)).2
            exact buildTree_isDir_some had hba
          · intro y hy
            obtain ⟨a, ha, hba⟩ := List.mem_filterMap.mp hy
            have had : a.isDir = false := by
              have := (List.mem_filter.mp
                ((List.mem_insertionSort fsLe).mp ha)).2
              simpa using this
            exact buildTree_notDir_some had hba
          · exact sorted_filterMap_build ctx rel depth
              (List.sorted_insertionSort fsLe _)
          · exact sorted_filterMap_build ctx rel depth
              (List.sorted_insertionSort fsLe _)
        · intro c hc
          rcases List.mem_append.mp hc with hmem | hmem <;>
          · obtain ⟨a, ha, hba⟩ := List.mem_filterMap.mp hmem
            have hal : a ∈ l :=
              List.mem_of_mem_filter ((List.mem_insertionSort fsLe).mp ha)
            exact claim_C4 hba
termination_by sizeOf e
decreasing_by
  all_goals
    have hlt := List.sizeOf_lt_of_mem hal
    subst_vars
    simp
    omega

/-- Witness for C4 on a concrete mixed-case build. -/
theorem claim_C4_witness :
    OrderedTree (Node.mk "repo" .directory
      (some [Node.mk "lib" .directory none, Node.mk "Src" .directory none,
        Node.mk "a.txt" .file none, Node.mk "B.txt" .file none])) :=
  claim_C4 ((buildTree_eq_exec
    ⟨["/", "repo"], DEFAULT_EXCLUDES, none, none⟩
    (.dir "repo" [.file "B.txt", .dir "Src" [], .file "a.txt", .dir "lib" []])
    [] 0).trans rfl)

/-! ### C7: ignore-file rules, later rules overriding, negation -/

/-- Modelled from the spec: single-segment glob matching (`*` and `?`
wildcards) of the ignore-file pattern language — the `pathspec`
gitwildmatch engine used by `_get_pathspec` is an external library, not
part of this repository.  `fuel` dominates every recursion (each step
consumes at least one character of pattern or subject), and the wrapper
`globMatch` supplies enough of it. -/
def globMatchF : Nat → List Char → List Char → Bool
  | 0, _, _ => false
  | _ + 1, [], [] => true
  | _ + 1, [], _ :: _ => false
  | fuel + 1, '*' :: ps, [] => globMatchF fuel ps []
  | fuel + 1, '*' :: ps, c :: cs =>
    globMatchF fuel ps (c :: cs) || globMatchF fuel ('*' :: ps) cs
  | _ + 1, '?' :: _, [] => false
  | fuel + 1, '?' :: ps, _ :: cs => globMatchF fuel ps cs
  | _ + 1, _ :: _, [] => false
  | fuel + 1, p :: ps, c :: cs => (p = c) && globMatchF fuel ps cs

/-- Glob match with adequate fuel. -/
def globMatch (ps cs : List Char) : Bool :=
  globMatchF (ps.length + cs.length + 1) ps cs

/-- Modelled from the spec: a slash-free ignore pattern matches a path
when it matches any of the path's segments (a matched directory segment
ignores everything beneath it as well). -/
def segMatch (pat : List Char) (rel : List String) : Bool :=
  rel.any fun s => globMatch pat s.data

/-- Modelled from the spec: parsing one ignore-file line — blank lines
and `#` comments carry no rule, a leading `!` negates.  Returns
`(negated, pattern)`. -/
def parseIgnoreLine : List Char → Option (Bool × List Char)
  | [] => none
  | c :: rest =>
    if c = '#' then none
    else if c = '!' then some (true, rest)
    else some (false, c :: rest)

/-- Modelled from the spec: the compiled ignore matcher
(`PathSpec.from_lines("gitwildmatch", ...)` + `match_file`, both from the
external `pathspec` library).  Rules are applied in file order and the
*last* matching rule decides, a negated rule deciding "not ignored". -/
def gitignoreMatcher (lines : List (List Char)) : List String → Bool :=
  fun rel =>
    ((lines.filterMap parseIgnoreLine).foldl
      (fun acc r => if segMatch r.2 rel then some (!r.1) else acc)
      none).getD false

/-- C7: rules are applied in file order and a later matching rule
overrides every earlier one (a negated rule deciding "not ignored");
concretely, with the ignore file `*.log` then `!keep.log`, `keep.log` is
retained in the tree while `other.log` stays excluded. -/
theorem claim_C7 :
    (∀ (lines : List (List Char)) (line pat : List Char) (neg : Bool)
      (rel : List String), parseIgnoreLine line = some (neg, pat) →
      segMatch pat rel = true →
      gitignoreMatcher (lines ++ [line]) rel = !neg) ∧
    getRepoStructure (.dir "repo" [.file "keep.log", .file "other.log"])
      ["/", "repo"]
      (some (gitignoreMatcher ["*.log".data, "!keep.log".data])) none none =
    some (Node.mk "repo" .directory (some [Node.mk "keep.log" .file none])) := by
  constructor
  · intro lines line pat neg rel hparse hmatch
    unfold gitignoreMatcher
    rw [List.filterMap_append, List.foldl_append]
    simp [hparse, List.filterMap_cons, hmatch]
  · exact (buildTree_eq_exec _ _ _ _).trans rfl

/-- Witness for C7's override rule at the concrete ignore file. -/
theorem claim_C7_witness :
    gitignoreMatcher (["*.log".data] ++ ["!keep.log".data]) ["keep.log"] =
      !true :=
  claim_C7.1 ["*.log".data] "!keep.log".data "keep.log".data true
    ["keep.log"] rfl rfl

/-! ### C8: determinism and listing-order independence -/

/-- Pairwise-distinct check on a list of lowercased names. -/
def nodupKeys : List (List Char) → Bool
  | [] => true
  | k :: ks => !(ks.contains k) && nodupKeys ks

mutual

/-- No two sibling entries share the same lowercased name, recursively
through every directory of the snapshot. -/
def noClash : FSEntry → Bool
  | .dir _ l => nodupKeys (l.map lowerName) && noClashList l
  | _ => true

/-- `noClash` over all entries of a listing. -/
def noClashList : List FSEntry → Bool
  | [] => true
  | e :: t => noClash e && noClashList t

end

/-- Two snapshots of the same filesystem content whose directory listings
may come back from the OS in different orders: equal except that every
directory's listing of the second is a permutation of the (recursively
related) listing of the first. -/
inductive FSPerm : FSEntry → FSEntry → Prop where
  | file (n : String) : FSPerm (.file n) (.file n)
  | symlinkFile (n : String) : FSPerm (.symlinkFile n) (.symlinkFile n)
  | symlinkDir (n : String) : FSPerm (.symlinkDir n) (.symlinkDir n)
  | denied (n : String) : FSPerm (.denied n) (.denied n)
  | other (n : String) : FSPerm (.other n) (.other n)
  | dir (n : String) (l₁ b l₂ : List FSEntry) :
      List.Forall₂ FSPerm l₁ b → b.Perm l₂ → FSPerm (.dir n l₁) (.dir n l₂)

theorem FSPerm.name_eq {a b : FSEntry} (h : FSPerm a b) : a.name = b.name := by
  cases h <;> rfl

theorem FSPerm.lowerName_eq {a b : FSEntry} (h : FSPerm a b) :
    lowerName a = lowerName b := by
  unfold lowerName
  rw [h.name_eq]

theorem FSPerm.isDir_eq {a b : FSEntry} (h : FSPerm a b) :
    a.isDir = b.isDir := by
  cases h <;> rfl

theorem forall₂_lowerName {A B : List FSEntry}
    (h : List.Forall₂ FSPerm A B) : A.map lowerName = B.map lowerName := by
  induction h with
  | nil => rfl
  | cons hR _ ih => simp [ih, hR.lowerName_eq]

theorem forall₂_filter {A B : List FSEntry} (p : FSEntry → Bool)
    (hpres : ∀ a b, FSPerm a b → p a = p b)
    (h : List.Forall₂ FSPerm A B) :
    List.Forall₂ FSPerm (A.filter p) (B.filter p) := by
  induction h with
  | nil => constructor
  | cons hR hF ih =>
    rw [List.filter_cons, List.filter_cons, ← hpres _ _ hR]
    split
    · exact List.Forall₂.cons hR ih
    · exact ih

theorem forall₂_mem_right {A B : List FSEntry}
    (h : List.Forall₂ FSPerm A B) {b : FSEntry} (hb : b ∈ B) :
    ∃ a ∈ A, FSPerm a b := by
  induction h with
  | nil => cases hb
  | cons hR hF ih =>
    rcases List.mem_cons.mp hb with rfl | hb'
    · exact ⟨_, List.mem_cons_self _ _, hR⟩
    · obtain ⟨a, ha, hra⟩ := ih hb'
      exact ⟨a, List.mem_cons_of_mem _ ha, hra⟩

theorem nodupKeys_iff (ks : List (List Char)) :
    nodupKeys ks = true ↔ ks.Nodup := by
  induction ks with
  | nil => simp [nodupKeys]
  | cons k ks ih =>
    rw [nodupKeys, List.nodup_cons, Bool.and_eq_true, ← ih]
    constructor
    · rintro ⟨h1, h2⟩
      refine ⟨fun hmem => ?_, h2⟩
      rw [Bool.not_eq_true', ← Bool.not_eq_true] at h1
      exact h1 (List.elem_iff.mpr hmem)
    · rintro ⟨h1, h2⟩
      refine ⟨?_, h2⟩
      rw [Bool.not_eq_true']
      cases hc : ks.contains k with
      | false => rfl
      | true => exact absurd (List.elem_iff.mp hc) h1

theorem noClashList_mem {l : List FSEntry} (h : noClashList l = true) :
    ∀ x ∈ l, noClash x = true := by
  induction l with
  | nil => intro x hx; cases hx
  | cons e t ih =>
    rw [noClashList, Bool.and_eq_true] at h
    intro x hx
    rcases List.mem_cons.mp hx with rfl | hx'
    · exact h.1
    · exact ih h.2 x hx'

/-- Order on lowercased names. -/
def keyLe (x y : List Char) : Prop := lexLe x y = true

instance : IsAntisymm (List Char) keyLe :=
  ⟨fun _ _ h₁ h₂ => lexLe_antisymm h₁ h₂⟩

/-- Alignment: two lists with pointwise-equal lowercased names, distinct
within the first, each element of the second related to some element of
the first, are pointwise related. -/
theorem forall₂_of_names {A C : List FSEntry}
    (hnames : A.map lowerName = C.map lowerName)
    (hnod : (A.map lowerName).Nodup)
    (hmatch : ∀ c ∈ C, ∃ a ∈ A, FSPerm a c) :
    List.Forall₂ FSPerm A C := by
  induction A generalizing C with
  | nil =>
    cases C with
    | nil => constructor
    | cons c C' => simp at hnames
  | cons a A' ih =>
    cases C with
    | nil => simp at hnames
    | cons c C' =>
      simp only [List.map_cons, List.cons.injEq] at hnames
      obtain ⟨h1, h2⟩ := hnames
      simp only [List.map_cons, List.nodup_cons] at hnod
      obtain ⟨hna, hnA'⟩ := hnod
      have hhead : FSPerm a c := by
        obtain ⟨x, hxA, hx⟩ := hmatch c (List.mem_cons_self c C')
        rcases List.mem_cons.mp hxA with rfl | hx'
        · exact hx
        · exfalso
          have hmemA : lowerName a ∈ List.map lowerName A' := by
            rw [h1, ← hx.lowerName_eq]
            exact List.mem_map_of_mem lowerName hx'
          exact hna hmemA
      have htail : ∀ c' ∈ C', ∃ a' ∈ A', FSPerm a' c' := by
        intro c' hc'
        obtain ⟨x, hxA, hx⟩ := hmatch c' (List.mem_cons_of_mem c hc')
        rcases List.mem_cons.mp hxA with rfl | hx'
        · exfalso
          have hmemA : lowerName x ∈ List.map lowerName A' := by
            rw [h2, hx.lowerName_eq]
            exact List.mem_map_of_mem lowerName hc'
          exact hna hmemA
        · exact ⟨x, hx', hx⟩
      exact List.Forall₂.cons hhead (ih h2 hnA' htail)

/-- The sorted filtered listings of two permuted snapshots align
pointwise when sibling lowercased names are distinct. -/
theorem perm_filter_align {l₁ B l₂ : List FSEntry} (p : FSEntry → Bool)
    (hpres : ∀ a b, FSPerm a b → p a = p b)
    (hf : List.Forall₂ FSPerm l₁ B) (hp : B.Perm l₂)
    (hnod : (l₁.map lowerName).Nodup) :
    List.Forall₂ FSPerm ((l₁.filter p).insertionSort fsLe)
      ((l₂.filter p).insertionSort fsLe) := by
  have hfa : List.Forall₂ FSPerm (l₁.filter p) (B.filter p) :=
    forall₂_filter p hpres hf
  have hpc : (B.filter p).Perm (l₂.filter p) := hp.filter p
  have hnodA : ((l₁.filter p).map lowerName).Nodup :=
    List.Nodup.sublist (List.Sublist.map lowerName (List.filter_sublist l₁))
      hnod
  have hpermsorted :
      (((l₁.filter p).insertionSort fsLe).map lowerName).Perm
        (((l₂.filter p).insertionSort fsLe).map lowerName) := by
    refine ((List.perm_insertionSort fsLe _).map lowerName).trans ?_
    refine List.Perm.trans ?_
      ((List.perm_insertionSort fsLe _).map lowerName).symm
    rw [forall₂_lowerName hfa]
    exact hpc.map lowerName
  have s1 : List.Sorted keyLe
      (((l₁.filter p).insertionSort fsLe).map lowerName) :=
    List.Pairwise.map lowerName (fun _ _ h => h)
      (List.sorted_insertionSort fsLe _)
  have s2 : List.Sorted keyLe
      (((l₂.filter p).insertionSort fsLe).map lowerName) :=
    List.Pairwise.map lowerName (fun _ _ h => h)
      (List.sorted_insertionSort fsLe _)
  apply forall₂_of_names
  · exact List.eq_of_perm_of_sorted hpermsorted s1 s2
  · exact (((List.perm_insertionSort fsLe _).map lowerName).symm).nodup hnodA
  · intro c hc
    have hcC : c ∈ l₂.filter p := (List.mem_insertionSort fsLe).mp hc
    obtain ⟨a, ha, hra⟩ := forall₂_mem_right hfa (hpc.mem_iff.mpr hcC)
    exact ⟨a, (List.mem_insertionSort fsLe).mpr ha, hra⟩

theorem filterMap_congr_rel {g : FSEntry → Option Node}
    {X Y : List FSEntry} (h : List.Forall₂ FSPerm X Y)
    (hg : ∀ a b, a ∈ X → FSPerm a b → g a = g b) :
    X.filterMap g = Y.filterMap g := by
  induction h with
  | nil => rfl
  | cons hR hF ih =>
    rw [List.filterMap_cons, List.filterMap_cons,
      ← hg _ _ (List.mem_cons_self _ _) hR]
    have ih' := ih fun a b ha => hg a b (List.mem_cons_of_mem _ ha)
    cases hga : g _ <;> simp [hga, ih']

/-- C8 (amended): the builder is a pure function of the snapshot and
context (running it twice on the same snapshot yields the same tree), and
its output is independent of the filesystem's native listing order
*provided no two sibling entries share the same lowercased name*: on
snapshots related by per-directory permutation of the listings it
produces identical trees. -/
theorem claim_C8_amended (ctx : Ctx) (fs₁ fs₂ : FSEntry) (rel : List String)
    (depth : Nat) (hperm : FSPerm fs₁ fs₂) (hnc : noClash fs₁ = true) :
    buildTree ctx fs₁ rel depth = buildTree ctx fs₂ rel depth := by
  cases hperm with
  | file n => rfl
  | symlinkFile n => rfl
  | symlinkDir n => rfl
  | denied n => rfl
  | other n => rfl
  | dir n l₁ B l₂ hf hp =>
    rw [noClash, Bool.and_eq_true] at hnc
    have hnod : (l₁.map lowerName).Nodup := (nodupKeys_iff _).mp hnc.1
    have hchild : ∀ x ∈ l₁, noClash x = true := noClashList_mem hnc.2
    cases h₁ : depthCut ctx.maxDepth depth with
    | true => rw [buildTree_cut _ rel h₁, buildTree_cut _ rel h₁]
    | false =>
    cases h₂ : isExcluded ctx.excludes (ctx.rootParts ++ rel) with
    | true => rw [buildTree_excluded _ h₂, buildTree_excluded _ h₂]
    | false =>
    cases h₃ : isIgnored ctx.ignore rel with
    | true => rw [buildTree_ignored _ h₃, buildTree_ignored _ h₃]
    | false =>
    cases h₅ : canEnumerate ctx.maxDepth depth with
    | false =>
      rw [buildTree_dir_stop h₁ h₂ h₃ h₅, buildTree_dir_stop h₁ h₂ h₃ h₅]
    | true =>
      rw [buildTree_dir_enum h₁ h₂ h₃ h₅, buildTree_dir_enum h₁ h₂ h₃ h₅]
      have hg : ∀ (X : List FSEntry), (∀ x ∈ X, x ∈ l₁) →
          ∀ a b, a ∈ X → FSPerm a b →
          buildTree ctx a (rel ++ [a.name]) (depth + 1) =
            buildTree ctx b (rel ++ [b.name]) (depth + 1) := by
        intro X hX a b ha hR
        have hal : a ∈ l₁ := hX a ha
        rw [← hR.name_eq]
        exact claim_C8_amended ctx a b (rel ++ [a.name]) (depth + 1) hR
          (hchild a hal)
      congr 1
      congr 1
      · exact filterMap_congr_rel
          (perm_filter_align (fun x => x.isDir)
            (fun a b h => h.isDir_eq) hf hp hnod)
          (hg _ fun x hx =>
            List.mem_of_mem_filter ((List.mem_insertionSort fsLe).mp hx))
      · exact filterMap_congr_rel
          (perm_filter_align (fun x => !x.isDir)
            (fun a b h => by simp only [h.isDir_eq]) hf hp hnod)
          (hg _ fun x hx =>
            List.mem_of_mem_filter ((List.mem_insertionSort fsLe).mp hx))
termination_by sizeOf fs₁
decreasing_by
  subst_vars
  have hlt := List.sizeOf_lt_of_mem hal
  simp
  omega

/-- C8 (counterexample to the claim as stated): two listing orders of the
same directory content — `A.txt` and `a.txt`, distinct names with the
same lowercased form — produce structurally different trees, because the
stable sort preserves the native listing order of the tied keys. -/
theorem claim_C8_counterexample :
    FSPerm (.dir "repo" [.file "A.txt", .file "a.txt"])
      (.dir "repo" [.file "a.txt", .file "A.txt"]) ∧
    buildTree ⟨["/", "repo"], DEFAULT_EXCLUDES, none, none⟩
        (.dir "repo" [.file "A.txt", .file "a.txt"]) [] 0 ≠
      buildTree ⟨["/", "repo"], DEFAULT_EXCLUDES, none, none⟩
        (.dir "repo" [.file "a.txt", .file "A.txt"]) [] 0 := by
  constructor
  · exact FSPerm.dir "repo" _ [FSEntry.file "A.txt", FSEntry.file "a.txt"] _
      (List.Forall₂.cons (FSPerm.file "A.txt")
        (List.Forall₂.cons (FSPerm.file "a.txt") List.Forall₂.nil))
      (List.Perm.swap _ _ _)
  · intro hcontra
    have e1 : buildTree ⟨["/", "repo"], DEFAULT_EXCLUDES, none, none⟩
        (.dir "repo" [.file "A.txt", .file "a.txt"]) [] 0 =
        some (Node.mk "repo" .directory
          (some [Node.mk "A.txt" .file none, Node.mk "a.txt" .file none])) :=
      (buildTree_eq_exec _ _ _ _).trans rfl
    have e2 : buildTree ⟨["/", "repo"], DEFAULT_EXCLUDES, none, none⟩
        (.dir "repo" [.file "a.txt", .file "A.txt"]) [] 0 =
        some (Node.mk "repo" .directory
          (some [Node.mk "a.txt" .file none, Node.mk "A.txt" .file none])) :=
      (buildTree_eq_exec _ _ _ _).trans rfl
    rw [e1, e2] at hcontra
    injection hcontra with h1
    injection h1 with hname htype hch
    injection hch with h2
    injection h2 with h3 h4
    injection h3 with h5 h6 h7
    exact absurd h5 (by decide)

/-- Witness for C8 (amended): two listing orders of a directory whose
sibling names have distinct lowercased forms give the same tree. -/
theorem claim_C8_witness :
    FSPerm (.dir "repo" [.file "b.txt", .dir "A" [.file "c.txt"]])
      (.dir "repo" [.dir "A" [.file "c.txt"], .file "b.txt"]) ∧
    noClash (.dir "repo" [.file "b.txt", .dir "A" [.file "c.txt"]]) = true ∧
    buildTree ⟨["/", "repo"], DEFAULT_EXCLUDES, none, none⟩
        (.dir "repo" [.file "b.txt", .dir "A" [.file "c.txt"]]) [] 0 =
      buildTree ⟨["/", "repo"], DEFAULT_EXCLUDES, none, none⟩
        (.dir "repo" [.dir "A" [.file "c.txt"], .file "b.txt"]) [] 0 := by
  have hperm : FSPerm (.dir "repo" [.file "b.txt", .dir "A" [.file "c.txt"]])
      (.dir "repo" [.dir "A" [.file "c.txt"], .file "b.txt"]) :=
    FSPerm.dir "repo" _
      [FSEntry.file "b.txt", FSEntry.dir "A" [.file "c.txt"]] _
      (List.Forall₂.cons (FSPerm.file "b.txt")
        (List.Forall₂.cons
          (FSPerm.dir "A" _ [FSEntry.file "c.txt"] _
            (List.Forall₂.cons (FSPerm.file "c.txt") List.Forall₂.nil)
            (List.Perm.refl _))
          List.Forall₂.nil))
      (List.Perm.swap _ _ _)
  exact ⟨hperm, rfl, claim_C8_amended _ _ _ _ _ hperm rfl⟩
